import Mathlib

/-!
Verification of the companion-bot conversational runtime against its
specification.  Each section embeds one component of the TypeScript source
as executable Lean definitions (pure functions over explicit state), and the
theorems at the end of the file settle the frozen claims C1..C10.

Conventions used throughout:
* JS numbers that are always non-negative integers in the program are Nat;
  values that can go negative (epoch-millisecond differences) are Int.
* In-place mutation of a JS array is modelled by returning the new list.
* Strings are manipulated as `List Char` where character-level reasoning is
  needed; `String` wrappers are provided at the boundaries.
-/

namespace CompanionBot

/-! ## Token estimator (src/utils/tokens.ts)

`estimateTokens` counts Hangul-syllable characters (the JS regex `[가-힣]`,
i.e. code points 0xAC00..0xD7A3) at 2 characters per token and everything
else at 4 characters per token, rounding the total up.  JS `text.length`
counts UTF-16 code units, so astral characters count twice. -/

/-- Is the character in the Hangul-syllable range matched by the regex. -/
def isKoreanChar (c : Char) : Bool :=
  0xAC00 ≤ c.toNat && c.toNat ≤ 0xD7A3

/-- UTF-16 code units contributed by one character (JS `String.length`). -/
def utf16Units (c : Char) : Nat :=
  if c.toNat < 0x10000 then 1 else 2

/-- JS `text.length` (UTF-16 code units). -/
def jsLength (s : List Char) : Nat :=
  (s.map utf16Units).sum

/-- Count of characters matching `[가-힣]`. -/
def koreanCount (s : List Char) : Nat :=
  s.countP (fun c => isKoreanChar c)

/-- `estimateTokens`: `Math.ceil(koreanChars / 2 + otherChars / 4)`.
Since `koreanChars/2 + otherChars/4 = (2*koreanChars + otherChars)/4`
exactly, the ceiling is `(2*k + o + 3) / 4` in Nat division. -/
def estimateTokens (s : List Char) : Nat :=
  let k := koreanCount s
  let o := jsLength s - k
  (2 * k + o + 3) / 4

/-- A message as measured by the token estimator (scalar text content). -/
structure MessageLike where
  role : String
  content : List Char
deriving Repr, DecidableEq

/-- `estimateMessagesTokens`: sum of per-message estimates plus a 4-token
per-message overhead. -/
def estimateMessagesTokens (messages : List MessageLike) : Nat :=
  messages.foldl (fun sum msg => sum + estimateTokens msg.content + 4) 0

/-! ## Session state: pinned contexts (src/session/state.ts `pinContext`)

The pinned-context list lives in the per-chat session.  `pinContext`
computes the current pinned-token total once, and if the new pin would
push the total over the budget it enters an eviction loop that repeatedly
removes the first `auto`-sourced pin; the loop condition re-reads the
*stale* total, so it only stops when the list is empty (then the new pin is
pushed) or when no `auto` pin remains (then it returns false, with the
`auto` pins already removed).  `TOKENS.MAX_PINNED` lives in
src/config/constants.ts which is not part of the provided sources, so the
budget is a parameter here; the spec gives the default 4k. -/

inductive PinSource where
  | auto
  | user
deriving Repr, DecidableEq

structure PinnedContext where
  text : List Char
  createdAt : Nat
  source : PinSource
deriving Repr, DecidableEq

/-- Total estimated tokens of a pin list (the `reduce` in `pinContext`). -/
def pinnedTokens (pins : List PinnedContext) : Nat :=
  pins.foldl (fun sum p => sum + estimateTokens p.text) 0

/-- `pinnedContexts.findIndex(p => p.source === "auto")` followed by
`splice(autoIndex, 1)`: remove the first `auto` pin, or `none` if there is
no `auto` pin. -/
def removeFirstAuto : List PinnedContext → Option (List PinnedContext)
  | [] => none
  | p :: rest =>
    if p.source = PinSource.auto then some rest
    else (removeFirstAuto rest).map (fun r => p :: r)

theorem removeFirstAuto_length :
    ∀ (pins out : List PinnedContext), removeFirstAuto pins = some out →
      out.length + 1 = pins.length := by
  intro pins
  induction pins with
  | nil => intro out h; simp [removeFirstAuto] at h
  | cons p rest ih =>
    intro out h
    simp only [removeFirstAuto] at h
    by_cases hp : p.source = PinSource.auto
    · simp [hp] at h; simp [← h]
    · simp [hp, Option.map_eq_some'] at h
      obtain ⟨r, hr, hout⟩ := h
      simp [← hout, ih r hr]

/-- The `while` eviction loop of `pinContext`, entered only when
`currentTokens + newTokens > MAX_PINNED`.  Because `currentTokens` is never
recomputed inside the loop body, the loop condition is invariantly true
while the list is non-empty; so the loop removes first-`auto` pins until
either the list is empty (loop exits, returns `true` = fall through to the
push) or no `auto` pin is left (the function returns `false` with the
mutated list). -/
def pinEvictLoopFuel : Nat → List PinnedContext → Bool × List PinnedContext
  | 0, pins => (true, pins)
  | fuel + 1, pins =>
    match removeFirstAuto pins with
    | some rest =>
      if rest.isEmpty then (true, rest)
      else pinEvictLoopFuel fuel rest
    | none =>
      if pins.isEmpty then (true, pins) else (false, pins)

def pinEvictLoop (pins : List PinnedContext) : Bool × List PinnedContext :=
  pinEvictLoopFuel (pins.length + 1) pins

/-- `pinContext(chatId, text, source)` acting on the session's pin list.
Returns the JS boolean result and the pin list after the call.  `now` is
`Date.now()` at the push. -/
def pinContext (maxPinned : Nat) (pins : List PinnedContext)
    (text : List Char) (source : PinSource) (now : Nat) :
    Bool × List PinnedContext :=
  let currentTokens := pinnedTokens pins
  let newTokens := estimateTokens text
  if currentTokens + newTokens > maxPinned then
    match pinEvictLoop pins with
    | (false, pins') => (false, pins')
    | (true, pins') =>
      (true, pins' ++ [{ text := text, createdAt := now, source := source }])
  else
    (true, pins ++ [{ text := text, createdAt := now, source := source }])

/-- Modelled from the spec: `TOKENS.MAX_PINNED` is declared in
src/config/constants.ts, which is not among the provided sources; the spec
gives the pinned-context budget as "MAX_PINNED (default 4k tokens)". -/
def MAX_PINNED_TOKENS : Nat := 4096

/-! ## Session state: history trimming (src/session/state.ts
`trimHistoryByTokens`, the config-driven variant at lines 510-531)

While the estimated token total exceeds `TOKENS.MAX_HISTORY` and more than
`MESSAGES.MIN_RECENT` messages remain, the oldest message is shifted off
the front.  Both constants live in src/config/constants.ts (not among the
provided sources; spec defaults 40-50k and 6), so they are parameters and
the claim is settled for every value. -/

/-- The `while` loop of `trimHistoryByTokens`. -/
def trimLoop (maxHistory minRecent : Nat) :
    List MessageLike → List MessageLike
  | [] => []
  | m :: rest =>
    if estimateMessagesTokens (m :: rest) > maxHistory ∧
        (m :: rest).length > minRecent then
      trimLoop maxHistory minRecent rest
    else
      m :: rest

/-- `trimHistoryByTokens(history)`: no-op for empty input or when already
within budget, otherwise the shift loop. -/
def trimHistoryByTokens (maxHistory minRecent : Nat)
    (history : List MessageLike) : List MessageLike :=
  if history.isEmpty then history
  else if estimateMessagesTokens history ≤ maxHistory then history
  else trimLoop maxHistory minRecent history

/-! ## LLM orchestration (src/ai/claude.ts: `chat`, `chatSmart`)

The provider is modelled as a deterministic oracle from the current API
message list to a response; tool dispatch (`executeTool`) is a second
oracle from a tool-use block to its string result.  A response carries a
stop reason and an ordered block list, mirroring
`{content: Block[], stop_reason}`. -/

inductive StopReason where
  | toolUse
  | endTurn
  | other
deriving Repr, DecidableEq

inductive Block where
  | text (s : List Char)
  | toolUseBlock (id : String) (nm : String) (input : String)
  | thinking (s : List Char)
deriving Repr, DecidableEq

structure Response where
  content : List Block
  stopReason : StopReason
deriving Repr, DecidableEq

structure ToolResultBlock where
  toolUseId : String
  result : List Char
deriving Repr, DecidableEq

inductive ApiMessage where
  | plain (role : String) (content : List Char)
  | assistantBlocks (content : List Block)
  | toolResults (results : List ToolResultBlock)
deriving Repr, DecidableEq

/-- `MAX_TOOL_ITERATIONS` (src/ai/claude.ts line 491). -/
def MAX_TOOL_ITERATIONS : Nat := 10

/-- The fixed user-visible fallback when the tool loop hits the cap. -/
def tooManyToolIterationsMessage : List Char :=
  "도구 실행이 너무 많이 반복됐어. 다시 시도해줄래?".toList

/-- The fallback when the final content has no text block. -/
def noResponseMessage : List Char :=
  "응답을 생성하지 못했어. 다시 시도해줄래?".toList

/-- Dispatch every tool-use block of a response in order, truncating each
result to 10,000 characters (src/ai/claude.ts lines 496-522). -/
def collectToolResults (executeTool : String → String → List Char)
    (content : List Block) : List ToolResultBlock :=
  (content.filterMap fun b =>
    match b with
    | Block.toolUseBlock id nm input =>
      let result := executeTool nm input
      let truncated :=
        if result.length > 10000 then
          result.take 10000 ++ "\n... (truncated)".toList
        else result
      some { toolUseId := id, result := truncated }
    | _ => none)

/-- One provider call: `withRetry(() => client.messages.create(params))`.
Provider calls are counted so the claims about call budgets can be stated.
Retries within `withRetry` re-issue the same request and are not separate
logical calls. -/
structure LoopState where
  response : Response
  msgs : List ApiMessage
  calls : Nat
  iterations : Nat
deriving Repr

/-- The body of one loop iteration: dispatch the tool-use blocks, append
the assistant turn and the tool results to the message list, and issue the
next provider call. -/
def toolLoopStep (provider : List ApiMessage → Response)
    (executeTool : String → String → List Char) (st : LoopState) :
    LoopState :=
  let results := collectToolResults executeTool st.response.content
  let msgs' := st.msgs ++
    [ApiMessage.assistantBlocks st.response.content,
     ApiMessage.toolResults results]
  { response := provider msgs', msgs := msgs', calls := st.calls + 1,
    iterations := st.iterations + 1 }

/-- The tool-use `while` loop of `chat`: runs while
`response.stop_reason === "tool_use" && iterations < MAX_TOOL_ITERATIONS`.
`fuel` is `MAX_TOOL_ITERATIONS - iterations`, so the loop structure is
mirrored exactly. -/
def toolLoop (provider : List ApiMessage → Response)
    (executeTool : String → String → List Char) :
    Nat → LoopState → LoopState
  | 0, st => st
  | fuel + 1, st =>
    if st.response.stopReason = StopReason.toolUse then
      toolLoop provider executeTool fuel
        (toolLoopStep provider executeTool st)
    else st

/-- First text block of the final content, with the JS `??` default. -/
def extractText (content : List Block) : List Char :=
  match content.findSome? (fun b =>
    match b with
    | Block.text s => some s
    | _ => none) with
  | some s => s
  | none => noResponseMessage

/-- Result of `chat`: the returned string plus the number of provider
calls issued during the turn. -/
structure ChatOutcome where
  text : List Char
  providerCalls : Nat
  loopIterations : Nat
deriving Repr

/-- `chat(messages, systemPrompt, modelId)` (src/ai/claude.ts 449-551).
The system prompt and model id only shape the request parameters, which
the provider oracle closes over, so the oracle takes just the message
list. -/
def chat (provider : List ApiMessage → Response)
    (executeTool : String → String → List Char)
    (messages : List ApiMessage) : ChatOutcome :=
  let response := provider messages
  let final := toolLoop provider executeTool MAX_TOOL_ITERATIONS
    { response := response, msgs := messages, calls := 1, iterations := 0 }
  if final.iterations ≥ MAX_TOOL_ITERATIONS then
    { text := tooManyToolIterationsMessage, providerCalls := final.calls,
      loopIterations := final.iterations }
  else
    { text := extractText final.response.content,
      providerCalls := final.calls, loopIterations := final.iterations }

/-- A streaming exchange: the ordered text deltas plus the stop reason of
the final message.  The `onChunk` callback receives each delta; its errors
are swallowed by the source, so it does not influence the result. -/
structure StreamOutcome where
  chunks : List (List Char)
  stopReason : StopReason
deriving Repr

/-- Result of `chatSmart`: `{ text, usedTools }`. -/
structure SmartOutcome where
  text : List Char
  usedTools : Bool
deriving Repr, DecidableEq

/-- `chatSmart(messages, systemPrompt, modelId, onChunk)` on the path where
a chunk callback is supplied and the stream completes (src/ai/claude.ts
564-662).  The accumulated text is the concatenation of the deltas; on
`stop_reason === "tool_use"` the accumulation is discarded and the
non-streaming `chat` is run on the same `messages`.  The exception paths
(pre-stream retry, mid-stream error) end the stream abnormally and are
outside this model. -/
def chatSmart (streamProvider : List ApiMessage → StreamOutcome)
    (provider : List ApiMessage → Response)
    (executeTool : String → String → List Char)
    (messages : List ApiMessage) : SmartOutcome :=
  let stream := streamProvider messages
  let accumulated := stream.chunks.foldl (fun acc c => acc ++ c) []
  if stream.stopReason = StopReason.toolUse then
    { text := (chat provider executeTool messages).text, usedTools := true }
  else
    { text := accumulated, usedTools := false }

/-! ## Agent manager (src/agents/manager.ts)

`cancelAgent` and the post-await continuations of `runAgent` are embedded
as state transformers on a single agent record.  The primitive side
effects of `cancelAgent` are recorded as an ordered event list so the
set-status-before-abort sequencing is part of the embedding. -/

inductive AgentStatus where
  | running
  | completed
  | failed
  | cancelled
deriving Repr, DecidableEq

structure Agent where
  id : String
  task : List Char
  chatId : Int
  status : AgentStatus
  hasCompletedAt : Bool
  result : Option (List Char)
  error : Option (List Char)
deriving Repr, DecidableEq

inductive CancelEvent where
  | setStatusCancelled
  | fireAbort
deriving Repr, DecidableEq

/-- `cancelAgent(agentId)` on a found agent (src/agents/manager.ts
251-276): a non-`running` agent is refused; otherwise the status is set to
`cancelled` (with `completedAt`) and only then is the AbortController
fired.  The returned event list records the side effects in program
order. -/
def cancelAgent (a : Agent) : Agent × Bool × List CancelEvent :=
  if a.status ≠ AgentStatus.running then
    (a, false, [])
  else
    ({ a with status := AgentStatus.cancelled, hasCompletedAt := true },
     true,
     [CancelEvent.setStatusCancelled, CancelEvent.fireAbort])

/-- `agent.task.slice(0, 100)` followed by `...` when the task is longer
(part of the `sendAgentResult` message formatting). -/
def taskPreview (task : List Char) : List Char :=
  task.take 100 ++ (if task.length > 100 then "...".toList else [])

/-- `sendAgentResult(agent)` (src/agents/manager.ts 210-233): the message
sent to the originating chat, or `none` for a still-`running` agent. -/
def sendAgentResult (a : Agent) : Option (List Char) :=
  match a.status with
  | AgentStatus.completed =>
    some ("🤖 **Sub-agent 완료** (".toList ++ a.id.toList ++
      ")\n\n📋 Task: ".toList ++ taskPreview a.task ++
      "\n\n✅ Result:\n".toList ++ (a.result.getD []))
  | AgentStatus.failed =>
    some ("🤖 **Sub-agent 실패** (".toList ++ a.id.toList ++
      ")\n\n📋 Task: ".toList ++ taskPreview a.task ++
      "\n\n❌ Error: ".toList ++ (a.error.getD []))
  | AgentStatus.cancelled =>
    some ("🤖 **Sub-agent 취소됨** (".toList ++ a.id.toList ++ ")".toList)
  | AgentStatus.running => none

/-- The continuation of `runAgent` after the API call resolves
successfully (src/agents/manager.ts 163-184): a cancelled agent's result
is discarded (early `return`: no status change, no message); otherwise the
agent completes and `sendAgentResult` delivers the result message. -/
def runAgentOnSuccess (a : Agent) (responseContent : List Block) :
    Agent × Option (List Char) :=
  if a.status = AgentStatus.cancelled then
    (a, none)
  else
    let textBlock := responseContent.findSome? (fun b =>
      match b with
      | Block.text s => some s
      | _ => none)
    let result := textBlock.getD "No response generated.".toList
    let a' := { a with status := AgentStatus.completed,
                       hasCompletedAt := true, result := some result }
    (a', sendAgentResult a')

/-- The catch branch of `runAgent` (src/agents/manager.ts 186-200): an
abort of a cancelled agent is ignored (early `return`); otherwise the
agent fails and the error message is delivered. -/
def runAgentOnError (a : Agent) (err : List Char) :
    Agent × Option (List Char) :=
  if a.status = AgentStatus.cancelled then
    (a, none)
  else
    let a' := { a with status := AgentStatus.failed,
                       hasCompletedAt := true, error := some err }
    (a', sendAgentResult a')

/-! ## String helpers shared by the cron and persistence embeddings

All character-level work is done over `List Char`; JS semantics
(`String.prototype.replace` with a global literal regex, `split`,
`parseInt`) are reproduced directly. -/

/-- Does `pat` occur at the head of `l`. -/
def headMatches : List Char → List Char → Bool
  | [], _ => true
  | _ :: _, [] => false
  | p :: ps, c :: cs => p = c && headMatches ps cs

/-- Fuel-driven worker for `replaceAll`; the fuel is an upper bound on the
input length, so the top-level wrapper below computes the total
function. -/
def replaceAllFuel (pat rep : List Char) : Nat → List Char → List Char
  | 0, l => l
  | _ + 1, [] => []
  | fuel + 1, c :: cs =>
    if pat ≠ [] ∧ headMatches pat (c :: cs) then
      rep ++ replaceAllFuel pat rep fuel ((c :: cs).drop pat.length)
    else
      c :: replaceAllFuel pat rep fuel cs

/-- `str.replace(new RegExp(name, "g"), value)` for a literal, non-empty
pattern: replace every (leftmost, non-overlapping) occurrence. -/
def replaceAll (pat rep : List Char) (l : List Char) : List Char :=
  replaceAllFuel pat rep l.length l

/-- `str.split(sep)` for a single-character separator. -/
def splitOnChar (sep : Char) : List Char → List (List Char)
  | [] => [[]]
  | c :: cs =>
    if c = sep then [] :: splitOnChar sep cs
    else
      match splitOnChar sep cs with
      | s :: ss => (c :: s) :: ss
      | [] => [[c]]

/-- JS whitespace test restricted to the characters relevant here. -/
def isWsChar (c : Char) : Bool :=
  c = ' ' || c = '\t' || c = '\n' || c = '\r'

/-- `expr.trim()`. -/
def trimChars (l : List Char) : List Char :=
  (l.dropWhile isWsChar).reverse.dropWhile isWsChar |>.reverse

/-- State-machine worker for `collapseWs`: `inRun` records whether the
previous character belonged to a whitespace run already emitted as one
space. -/
def collapseWsAux (inRun : Bool) : List Char → List Char
  | [] => []
  | c :: cs =>
    if isWsChar c then
      if inRun then collapseWsAux true cs
      else ' ' :: collapseWsAux true cs
    else c :: collapseWsAux false cs

/-- `expr.replace(/\s+/g, " ")`: collapse every whitespace run to one
space. -/
def collapseWs (l : List Char) : List Char := collapseWsAux false l

def isDigitChar (c : Char) : Bool :=
  '0' ≤ c && c ≤ '9'

def digitVal (c : Char) : Nat := c.toNat - '0'.toNat

/-- Leading decimal-digit run, as in `parseInt(s, 10)` after its
whitespace/sign prelude; `none` models `NaN` (no digits).  The cron fields
parsed here never carry a sign or leading whitespace. -/
def jsParseInt (l : List Char) : Option Int :=
  let digits := l.takeWhile isDigitChar
  if digits.isEmpty then none
  else some (Int.ofNat (digits.foldl (fun acc c => acc * 10 + digitVal c) 0))

/-- `s.toUpperCase()` (ASCII; non-ASCII characters in scope are Hangul,
which JS leaves unchanged too). -/
def upperChars (l : List Char) : List Char := l.map Char.toUpper

/-! ## Cron expression parser (src/cron/parser.ts) -/

inductive CronFieldType where
  | wildcard
  | list
  | step
  | range
  | value
deriving Repr, DecidableEq

/-- A parsed cron field: the shape tag and the matching values.  A JS
`NaN` entry (from `parseInt` on a non-numeric token) is omitted from
`values`: under `Array.includes` a NaN entry never equals the numeric
candidate fields tested in `getNextCronRun`, so it matches nothing. -/
structure CronField where
  type : CronFieldType
  values : List Int
deriving Repr, DecidableEq

/-- `range(start, end)` (src/cron/parser.ts 124-130). -/
def rangeValues (start stop : Int) : List Int :=
  if start ≤ stop then
    (List.range ((stop - start).toNat + 1)).map (fun i => start + i)
  else []

/-- The `for (let i = start; i <= end; i += step)` loop of the step
branch.  A non-positive step never terminates in JS (such expressions are
rejected by the `node-cron` validation guard before this code runs); the
model returns `[]` there.  A `NaN` step pushes only `start` (the first
`i <= end` test passes, then `i` becomes NaN). -/
def stepValues (start stop : Int) (step : Option Int) : List Int :=
  match step with
  | none => if start ≤ stop then [start] else []
  | some st =>
    if st ≤ 0 then []
    else if start ≤ stop then
      (List.range ((stop - start).toNat / st.toNat + 1)).map
        (fun i => start + st * i)
    else []

/-- The day-name map (insertion order of the JS object literal). -/
def DAY_NAMES : List (List Char × Nat) :=
  [("SUN".toList, 0), ("SUNDAY".toList, 0),
   ("MON".toList, 1), ("MONDAY".toList, 1),
   ("TUE".toList, 2), ("TUESDAY".toList, 2),
   ("WED".toList, 3), ("WEDNESDAY".toList, 3),
   ("THU".toList, 4), ("THURSDAY".toList, 4),
   ("FRI".toList, 5), ("FRIDAY".toList, 5),
   ("SAT".toList, 6), ("SATURDAY".toList, 6)]

/-- The month-name map (insertion order of the JS object literal). -/
def MONTH_NAMES : List (List Char × Nat) :=
  [("JAN".toList, 1), ("JANUARY".toList, 1),
   ("FEB".toList, 2), ("FEBRUARY".toList, 2),
   ("MAR".toList, 3), ("MARCH".toList, 3),
   ("APR".toList, 4), ("APRIL".toList, 4),
   ("MAY".toList, 5),
   ("JUN".toList, 6), ("JUNE".toList, 6),
   ("JUL".toList, 7), ("JULY".toList, 7),
   ("AUG".toList, 8), ("AUGUST".toList, 8),
   ("SEP".toList, 9), ("SEPTEMBER".toList, 9),
   ("OCT".toList, 10), ("OCTOBER".toList, 10),
   ("NOV".toList, 11), ("NOVEMBER".toList, 11),
   ("DEC".toList, 12), ("DECEMBER".toList, 12)]

/-- Apply the name map replacements in object-entry order (the
`for (const [name, value] of Object.entries(nameMap))` loop). -/
def applyNameMap (nameMap : List (List Char × Nat)) (s : List Char) :
    List Char :=
  nameMap.foldl (fun acc entry =>
    replaceAll entry.1 (Int.ofNat entry.2).natAbs.repr.toList acc) s

/-- `parseCronField` on a comma-free token (the wildcard / step / range /
single-value branches, src/cron/parser.ts 74-118).  Name replacement has
already happened on the full field, so the recursive list case parses its
parts with this function. -/
def parseCronFieldAtom (field : List Char) (mn mx : Nat) : CronField :=
  if field = "*".toList then
    { type := CronFieldType.wildcard,
      values := rangeValues (Int.ofNat mn) (Int.ofNat mx) }
  else if field.contains '/' then
    let parts := splitOnChar '/' field
    let rangeStr := parts.headD []
    let stepStr := (parts.drop 1).headD []
    let step := jsParseInt stepStr
    let startStop :
        Option Int × Option Int :=
      if rangeStr = "*".toList then
        (some (Int.ofNat mn), some (Int.ofNat mx))
      else if rangeStr.contains '-' then
        let rparts := splitOnChar '-' rangeStr
        (jsParseInt (rparts.headD []), jsParseInt ((rparts.drop 1).headD []))
      else
        (jsParseInt rangeStr, some (Int.ofNat mx))
    match startStop with
    | (some a, some b) => { type := CronFieldType.step, values := stepValues a b step }
    | (some _, none) => { type := CronFieldType.step, values := [] }
    | (none, _) => { type := CronFieldType.step, values := [] }
  else if field.contains '-' then
    let rparts := splitOnChar '-' field
    match jsParseInt (rparts.headD []), jsParseInt ((rparts.drop 1).headD []) with
    | some a, some b => { type := CronFieldType.range, values := rangeValues a b }
    | _, _ => { type := CronFieldType.range, values := [] }
  else
    match jsParseInt field with
    | some v => { type := CronFieldType.value, values := [v] }
    | none => { type := CronFieldType.value, values := [] }

/-- `[...new Set(values)]` preserving first occurrences. -/
def dedupFirst (l : List Int) : List Int := l.eraseDups

/-- `parseCronField(field, min, max, nameMap)` (src/cron/parser.ts
60-119): uppercase, replace names, then either the list branch (split on
commas, parse each trimmed part, dedupe, numeric sort) or the atom
branches.  Split parts contain no comma, so the source's recursion
terminates after one level, which the atom function realizes. -/
def parseCronField (field : List Char) (mn mx : Nat)
    (nameMap : List (List Char × Nat) := []) : CronField :=
  let processed := applyNameMap nameMap (upperChars field)
  if processed.contains ',' then
    let values := (splitOnChar ',' processed).flatMap
      (fun part => (parseCronFieldAtom (trimChars part) mn mx).values)
    { type := CronFieldType.list,
      values := (dedupFirst values).mergeSort (fun a b => a ≤ b) }
  else
    parseCronFieldAtom processed mn mx

structure ParsedCronExpression where
  minute : CronField
  hour : CronField
  dayOfMonth : CronField
  month : CronField
  dayOfWeek : CronField
deriving Repr, DecidableEq

/-- `parseCronExpression(expr)` (src/cron/parser.ts 137-159): normalize
whitespace, require five fields, parse each.  The `node-cron`
`isValidCronExpression` guard (an external library call) is not modelled;
it accepts every expression exercised by the claims, and an invalid
expression throws in the source, which `none` models here. -/
def parseCronExpression (expr : List Char) : Option ParsedCronExpression :=
  let normalized := collapseWs (trimChars expr)
  let parts := splitOnChar ' ' normalized
  if parts.length ≠ 5 then none
  else
    some
      { minute := parseCronField (parts.headD []) 0 59,
        hour := parseCronField ((parts.drop 1).headD []) 0 23,
        dayOfMonth := parseCronField ((parts.drop 2).headD []) 1 31,
        month := parseCronField ((parts.drop 3).headD []) 1 12 MONTH_NAMES,
        dayOfWeek := parseCronField ((parts.drop 4).headD []) 0 6 DAY_NAMES }

/-! ### JS `Date` field model

The host clock of the bot runs one fixed offset (the `timezone` argument
of `getNextCronRun` is accepted but never used, so all `Date` getters are
host-local); times are modelled as minutes since the Unix epoch in that
frame.  Civil fields come from the standard days-from-civil conversion
(no DST, matching a UTC host). -/

/-- Civil (year, month 1-12, day 1-31) from a day number since 1970-01-01
(Howard Hinnant's `civil_from_days`, specialized to non-negative days). -/
def civilFromDays (days : Nat) : Nat × Nat × Nat :=
  let z := days + 719468
  let era := z / 146097
  let doe := z % 146097
  let yoe := (doe - doe / 1460 + doe / 36524 - doe / 146096) / 365
  let y := yoe + era * 400
  let doy := doe - (365 * yoe + yoe / 4 - yoe / 100)
  let mp := (5 * doy + 2) / 153
  let d := doy - (153 * mp + 2) / 5 + 1
  let m := if mp < 10 then mp + 3 else mp - 9
  (if m ≤ 2 then y + 1 else y, m, d)

/-- `getMinutes()` of an epoch-minute stamp. -/
def minuteOf (m : Nat) : Nat := m % 60

/-- `getHours()`. -/
def hourOf (m : Nat) : Nat := (m / 60) % 24

/-- `getDate()` (day of month). -/
def dayOfMonthOf (m : Nat) : Nat := (civilFromDays (m / 1440)).2.2

/-- `getMonth() + 1`. -/
def monthOf (m : Nat) : Nat := (civilFromDays (m / 1440)).2.1

/-- `getDay()` (0 = Sunday; 1970-01-01 was a Thursday). -/
def dayOfWeekOf (m : Nat) : Nat := (m / 1440 + 4) % 7

/-- The five-field match test of the candidate loop (src/cron/parser.ts
189-195): minute, hour and month must match, and `dayOfMonth` *or*
`dayOfWeek` must match — the disjunction is applied even when one of the
two fields is the wildcard. -/
def cronMatches (parsed : ParsedCronExpression) (m : Nat) : Bool :=
  parsed.minute.values.contains (Int.ofNat (minuteOf m)) &&
  parsed.hour.values.contains (Int.ofNat (hourOf m)) &&
  parsed.month.values.contains (Int.ofNat (monthOf m)) &&
  (parsed.dayOfMonth.values.contains (Int.ofNat (dayOfMonthOf m)) ||
   parsed.dayOfWeek.values.contains (Int.ofNat (dayOfWeekOf m)))

/-- The bounded forward search of `getNextCronRun` over successive
minutes. -/
def cronSearch (parsed : ParsedCronExpression) : Nat → Nat → Option Nat
  | 0, _ => none
  | fuel + 1, m => if cronMatches parsed m then some m else cronSearch parsed fuel (m + 1)

/-- `maxIterations = 365 * 24 * 60 * 2` (src/cron/parser.ts 178). -/
def cronMaxIterations : Nat := 365 * 24 * 60 * 2

/-- `getNextCronRun(expression, fromDate, timezone)` (src/cron/parser.ts
164-201), returning the epoch-minute stamp of the match.  The `timezone`
parameter of the source is unused there, so it does not appear.  The
candidate walk starts at the next whole minute after `fromMs`
(`setSeconds(0); setMilliseconds(0); setMinutes(getMinutes() + 1)`).
`none` models the throw (invalid expression / no match inside two
years). -/
def getNextCronRun (expression : List Char) (fromMs : Nat) : Option Nat :=
  match parseCronExpression expression with
  | none => none
  | some parsed => cronSearch parsed cronMaxIterations (fromMs / 60000 + 1)

/-! ## Schedules: next-run computation

`Schedule` (declared in src/cron/types.ts, which only its users appear in
the sources) is the tagged union used by both src/cron/parser.ts
(`getNextRun`) and src/cron/store.ts (`calculateNextRun`).  Modelled from
the spec: "`spec` is the kind-specific schedule descriptor (absolute epoch
ms; interval ms + optional start; cron fields + timezone)"; the `every`
variant carries the optional legacy `intervalMs` field that store.ts reads
through `schedule.everyMs || schedule.intervalMs || 60000`. -/

structure EverySpec where
  everyMs : Option Int
  intervalMs : Option Int
  startMs : Option Int
deriving Repr, DecidableEq

inductive Schedule where
  | at (atMs : Int)
  | every (spec : EverySpec)
  | cron (expression : List Char) (timezone : Option (List Char))
deriving Repr, DecidableEq

/-- `getNextRun(schedule, now)` (src/cron/parser.ts 206-224).  The `every`
branch is `startMs + (Math.floor((now - startMs) / everyMs) + 1) * everyMs`
with `startMs ?? now`; `Int.fdiv` is JS `Math.floor` of the real quotient
for a positive divisor.  An absent `everyMs` poisons the JS arithmetic
with `NaN`, modelled as `none`; the cron branch converts through the
minute-stamp model (post-epoch times). -/
def getNextRun (schedule : Schedule) (nowMs : Int) : Option Int :=
  match schedule with
  | Schedule.at atMs => some atMs
  | Schedule.every spec =>
    match spec.everyMs with
    | none => none
    | some everyMs =>
      let startMs := spec.startMs.getD nowMs
      let elapsed := nowMs - startMs
      let intervals := Int.fdiv elapsed everyMs
      some (startMs + (intervals + 1) * everyMs)
  | Schedule.cron expression _tz =>
    (getNextCronRun expression nowMs.toNat).map (fun m => Int.ofNat (m * 60000))

/-- JS `a || b` chain for the interval resolution in store.ts:
`schedule.everyMs || schedule.intervalMs || 60000` (0 and `undefined` are
falsy). -/
def resolveIntervalMs (everyMs intervalMs : Option Int) : Int :=
  match everyMs with
  | some v => if v ≠ 0 then v else
    match intervalMs with
    | some w => if w ≠ 0 then w else 60000
    | none => 60000
  | none =>
    match intervalMs with
    | some w => if w ≠ 0 then w else 60000
    | none => 60000

/-- `calculateNextRun(schedule)` (src/cron/store.ts 164-189), with `now`
passed explicitly.  `undefined` results are `none`.  The `every` branch
returns the start when it is still in the future and otherwise
`now + intervalMs` — not the next grid point after `now`. -/
def calculateNextRun (schedule : Schedule) (nowMs : Int) : Option Int :=
  match schedule with
  | Schedule.at atMs => if atMs > nowMs then some atMs else none
  | Schedule.every spec =>
    let intervalMs := resolveIntervalMs spec.everyMs spec.intervalMs
    let startAt := spec.startMs.getD nowMs
    if startAt > nowMs then some startAt
    else some (nowMs + intervalMs)
  | Schedule.cron expression _tz =>
    (getNextCronRun expression nowMs.toNat).map (fun m => Int.ofNat (m * 60000))

/-! ## Job-store loading (src/cron/store.ts `loadJobs`,
src/cron/storage.ts `loadStore`)

The JSON value returned by `JSON.parse` is modelled by `JsValue`
(`undef` is the JS `undefined` produced by a missing member).  The state
of cron-jobs.json as observed through `fs.readFile` + `JSON.parse` is one
of: file absent (`ENOENT`), unreadable (other I/O error), contents that
`JSON.parse` rejects, or a parsed value. -/

inductive JsValue where
  | undef
  | null
  | bool (b : Bool)
  | num (n : Int)
  | str (s : List Char)
  | arr (elems : List JsValue)
  | obj (fields : List (List Char × JsValue))
deriving Repr

inductive JobFileState where
  | absent
  | unreadable
  | invalidJson
  | holdsJson (v : JsValue)
deriving Repr

/-- First binding of a field name in an object literal. -/
def lookupField (fields : List (List Char × JsValue)) (name : List Char) :
    Option JsValue :=
  match fields with
  | [] => none
  | (k, v) :: rest => if k = name then some v else lookupField rest name

/-- JS member access `v.name`: a `TypeError` throw on `null`/`undefined`
(modelled as `Except.error`), the field value or `undefined` on objects,
and `undefined` on other primitives and arrays (no such own property). -/
def jsGetField (v : JsValue) (name : List Char) : Except Unit JsValue :=
  match v with
  | JsValue.undef => Except.error ()
  | JsValue.null => Except.error ()
  | JsValue.obj fields => Except.ok ((lookupField fields name).getD JsValue.undef)
  | _ => Except.ok JsValue.undef

/-- JS truthiness. -/
def jsTruthy (v : JsValue) : Bool :=
  match v with
  | JsValue.undef => false
  | JsValue.null => false
  | JsValue.bool b => b
  | JsValue.num n => n ≠ 0
  | JsValue.str s => !s.isEmpty
  | JsValue.arr _ => true
  | JsValue.obj _ => true

/-- `loadJobs()` (src/cron/store.ts 29-41): read + parse inside `try`;
`ENOENT` and every other failure (including the `store.jobs` member access
throwing on a non-object parse result) fall to a logged `return []`;
otherwise `store.jobs || []`. -/
def loadJobs (file : JobFileState) : JsValue :=
  match file with
  | JobFileState.absent => JsValue.arr []
  | JobFileState.unreadable => JsValue.arr []
  | JobFileState.invalidJson => JsValue.arr []
  | JobFileState.holdsJson v =>
    match jsGetField v "jobs".toList with
    | Except.error _ => JsValue.arr []
    | Except.ok jobs => if jsTruthy jobs then jobs else JsValue.arr []

/-- `loadStore()` (src/cron/storage.ts 14-21): the parsed value, or
`{ jobs: [] }` when the read or the parse throws. -/
def loadStore (file : JobFileState) : JsValue :=
  match file with
  | JobFileState.holdsJson v => v
  | _ => JsValue.obj [("jobs".toList, JsValue.arr [])]

/-! ## JSONL session persistence (src/session/persistence.ts)

`appendMessage` writes `JSON.stringify({role, content, timestamp}) + "\n"`
to the per-chat file; `loadHistory` splits the file into lines, skips
blank and malformed ones, and keeps the last `limit` entries (all of them
when `limit = 0`).  The JSON string quoting of `JSON.stringify`
(ECMA-262 `QuoteJSONString`) and the string reading of `JSON.parse` are
embedded character by character; this is what makes one message one line
for arbitrary content. -/

/-- Lower-case hexadecimal digit (as emitted by `QuoteJSONString`'s
`UnicodeEscape`). -/
def hexDigitChar (n : Nat) : Char :=
  if n < 10 then Char.ofNat ('0'.toNat + n) else Char.ofNat ('a'.toNat + n - 10)

/-- Hexadecimal digit value accepted by `JSON.parse` (either case). -/
def hexVal (c : Char) : Option Nat :=
  if '0' ≤ c ∧ c ≤ '9' then some (c.toNat - '0'.toNat)
  else if 'a' ≤ c ∧ c ≤ 'f' then some (c.toNat - 'a'.toNat + 10)
  else if 'A' ≤ c ∧ c ≤ 'F' then some (c.toNat - 'A'.toNat + 10)
  else none

/-- `QuoteJSONString` on one character: the two-character escapes for
quote, backslash and the five control shorthands, `\u00xx` for the other
control characters, and the character itself otherwise.  (Lone surrogates
cannot occur: Lean characters are Unicode scalar values.) -/
def escChar (c : Char) : List Char :=
  if c = '"' then ['\\', '"']
  else if c = '\\' then ['\\', '\\']
  else if c = '\x08' then ['\\', 'b']
  else if c = '\t' then ['\\', 't']
  else if c = '\n' then ['\\', 'n']
  else if c = '\x0c' then ['\\', 'f']
  else if c = '\r' then ['\\', 'r']
  else if c.toNat < 0x20 then
    ['\\', 'u', '0', '0', hexDigitChar (c.toNat / 16), hexDigitChar (c.toNat % 16)]
  else [c]

/-- JSON quoting of a whole string (without the delimiting quotes). -/
def escapeJson (s : List Char) : List Char := (s.map escChar).flatten

/-- The single-character escapes accepted by `JSON.parse`. -/
def unescapeChar (e : Char) : Option Char :=
  if e = '"' then some '"'
  else if e = '\\' then some '\\'
  else if e = '/' then some '/'
  else if e = 'b' then some '\x08'
  else if e = 'f' then some '\x0c'
  else if e = 'n' then some '\n'
  else if e = 'r' then some '\r'
  else if e = 't' then some '\t'
  else none

/-- `JSON.parse` string reading, applied after an opening quote: returns
the decoded characters up to the closing quote together with the rest of
the input.  Raw control characters are a syntax error; `\u` escapes in
the surrogate range are not representable as Lean characters and are
rejected (the encoder never emits them). -/
def parseJsonStringBody : List Char → Option (List Char × List Char)
  | [] => none
  | '"' :: rest => some ([], rest)
  | '\\' :: rest =>
    match rest with
    | 'u' :: h1 :: h2 :: h3 :: h4 :: rest' =>
      match hexVal h1, hexVal h2, hexVal h3, hexVal h4 with
      | some a, some b, some c, some d =>
        let n := 4096 * a + 256 * b + 16 * c + d
        if 0xD800 ≤ n ∧ n < 0xE000 then none
        else (parseJsonStringBody rest').map (fun p => (Char.ofNat n :: p.1, p.2))
      | _, _, _, _ => none
    | e :: rest' =>
      match unescapeChar e with
      | some c => (parseJsonStringBody rest').map (fun p => (c :: p.1, p.2))
      | none => none
    | [] => none
  | c :: rest =>
    if c.toNat < 0x20 then none
    else (parseJsonStringBody rest).map (fun p => (c :: p.1, p.2))

/-- Decimal digit character. -/
def digitChar (d : Nat) : Char := Char.ofNat ('0'.toNat + d)

/-- Decimal digits of `n`, most significant first (`fuel` bounds the
digit count; `n + 1` always suffices). -/
def natDigitsAux : Nat → Nat → List Char
  | 0, _ => []
  | fuel + 1, n =>
    if n = 0 then []
    else natDigitsAux fuel (n / 10) ++ [digitChar (n % 10)]

/-- `JSON.stringify` of a non-negative integer (`Date.now()` values). -/
def natToChars (n : Nat) : List Char :=
  if n = 0 then ['0'] else natDigitsAux (n + 1) n

/-- Read a leading run of decimal digits and its value (the number
reading of `JSON.parse`, restricted to the non-negative integers the
writer emits). -/
def parseNatAt (l : List Char) : Option (Nat × List Char) :=
  let digits := l.takeWhile isDigitChar
  if digits.isEmpty then none
  else some (digits.foldl (fun acc c => acc * 10 + digitVal c) 0,
             l.dropWhile isDigitChar)

/-- Match a literal chunk and return what follows. -/
def expectLit : List Char → List Char → Option (List Char)
  | [], rest => some rest
  | _ :: _, [] => none
  | p :: ps, c :: cs => if p = c then expectLit ps cs else none

/-- The persisted roles (`role: "user" | "assistant"`). -/
inductive Role where
  | user
  | assistant
deriving Repr, DecidableEq

def roleChars : Role → List Char
  | Role.user => "user".toList
  | Role.assistant => "assistant".toList

/-- A parsed line of the JSONL log (`PersistedMessage`); the role is kept
as the raw decoded string, matching the unvalidated
`JSON.parse(line) as PersistedMessage` cast. -/
structure PersistedMessage where
  role : List Char
  content : List Char
  timestamp : Nat
deriving Repr, DecidableEq

/-- `JSON.stringify({role, content, timestamp})`: fixed insertion-order
keys, no whitespace. -/
def encodeLine (role : Role) (content : List Char) (timestamp : Nat) :
    List Char :=
  "\x7b\"role\":\"".toList ++ escapeJson (roleChars role) ++
  "\",\"content\":\"".toList ++ escapeJson content ++
  "\",\"timestamp\":".toList ++ natToChars timestamp ++ "\x7d".toList

/-- `JSON.parse(line) as PersistedMessage` for the exact object shape the
writer emits (`none` models the `SyntaxError` catch that makes
`loadHistory` skip the line; JSON documents of other shapes would also be
accepted by the unvalidated source cast, but no line written by
`appendMessage` has another shape, and skipping versus accepting an alien
line does not move the appended line from the tail of the log). -/
def parsePersistedLine (l : List Char) : Option PersistedMessage :=
  (expectLit "\x7b\"role\":\"".toList l).bind fun r1 =>
  (parseJsonStringBody r1).bind fun pr =>
  (expectLit ",\"content\":\"".toList pr.2).bind fun r3 =>
  (parseJsonStringBody r3).bind fun pc =>
  (expectLit ",\"timestamp\":".toList pc.2).bind fun r5 =>
  (parseNatAt r5).bind fun pt =>
  (expectLit "\x7d".toList pt.2).bind fun r7 =>
  if r7.isEmpty then
    some { role := pr.1, content := pc.1, timestamp := pt.1 }
  else none

/-- `appendMessage(chatId, role, content)` acting on the chat's file
content; `nowTs` is the `Date.now()` timestamp taken inside the call. -/
def appendMessage (file : List Char) (role : Role) (content : List Char)
    (nowTs : Nat) : List Char :=
  file ++ encodeLine role content nowTs ++ ['\n']

/-- Parse every line of the file, skipping blank lines (`line.trim()`
falsy) and lines `JSON.parse` rejects — the per-line loop of
`loadHistory`. -/
def parseRecords (file : List Char) : List PersistedMessage :=
  (splitOnChar '\n' file).filterMap fun l =>
    if (trimChars l).isEmpty then none else parsePersistedLine l

/-- `loadHistory(chatId, limit)` on the file content (src/session/
persistence.ts 70-107): all parsed records, then the last `limit` of them
when `limit > 0`. -/
def loadHistory (file : List Char) (limit : Nat) : List PersistedMessage :=
  let messages := parseRecords file
  if limit > 0 ∧ messages.length > limit then
    messages.drop (messages.length - limit)
  else messages

/-! ## Supporting lemmas -/

theorem trimLoop_spec (maxH minR : Nat) (history : List MessageLike) :
    (estimateMessagesTokens (trimLoop maxH minR history) ≤ maxH ∨
      (trimLoop maxH minR history).length ≤ minR) ∧
    (∃ k, k ≤ history.length ∧ trimLoop maxH minR history = history.drop k) ∧
    min minR history.length ≤ (trimLoop maxH minR history).length := by
  induction history with
  | nil =>
    refine ⟨Or.inl ?_, ⟨0, Nat.le_refl 0, rfl⟩, ?_⟩ <;>
      simp [trimLoop, estimateMessagesTokens]
  | cons m rest ih =>
    by_cases hcond : estimateMessagesTokens (m :: rest) > maxH ∧
        (m :: rest).length > minR
    · have heq : trimLoop maxH minR (m :: rest) = trimLoop maxH minR rest := by
        simp only [trimLoop, if_pos hcond]
      rw [heq]
      refine ⟨ih.1, ?_, ?_⟩
      · obtain ⟨k, hkle, hk⟩ := ih.2.1
        exact ⟨k + 1, by simp; omega, by simpa using hk⟩
      · have h1 := ih.2.2
        have h2 := hcond.2
        simp only [List.length_cons] at h2 ⊢
        omega
    · have heq : trimLoop maxH minR (m :: rest) = m :: rest := by
        simp only [trimLoop, if_neg hcond]
      rw [heq]
      refine ⟨?_, ⟨0, Nat.zero_le _, rfl⟩, Nat.min_le_right _ _⟩
      by_cases ht : estimateMessagesTokens (m :: rest) ≤ maxH
      · exact Or.inl ht
      · refine Or.inr ?_
        by_cases hl : (m :: rest).length ≤ minR
        · exact hl
        · exact absurd ⟨Nat.lt_of_not_le ht, Nat.lt_of_not_le hl⟩ hcond



theorem drop_suffix_drop {α : Type} (l : List α) {a b : Nat} (h : b ≤ a) :
    l.drop a <:+ l.drop b := by
  have : (l.drop b).drop (a - b) = l.drop a := by
    rw [List.drop_drop]
    congr 1
    omega
  rw [← this]
  exact List.drop_suffix _ _

/-! ## Claim theorems -/

/-- C8: for every history list and every value of the configuration
constants, after `trimHistoryByTokens` either the estimated token total is
within `MAX_HISTORY_TOKENS` or at most `MIN_RECENT` messages remain; the
result is obtained by dropping an oldest-first prefix only, and the most
recent `MIN_RECENT` messages are untouched (they remain a suffix of the
result). -/
theorem trimHistoryByTokens_spec (maxHistory minRecent : Nat)
    (history : List MessageLike) :
    (estimateMessagesTokens (trimHistoryByTokens maxHistory minRecent history) ≤
        maxHistory ∨
      (trimHistoryByTokens maxHistory minRecent history).length ≤ minRecent) ∧
    (∃ k, trimHistoryByTokens maxHistory minRecent history = history.drop k) ∧
    history.drop (history.length - minRecent) <:+
      trimHistoryByTokens maxHistory minRecent history := by
  by_cases hempty : history.isEmpty
  · have h0 : history = [] := List.isEmpty_iff.mp hempty
    subst h0
    refine ⟨Or.inl ?_, ⟨0, rfl⟩, ?_⟩ <;>
      simp [trimHistoryByTokens, estimateMessagesTokens]
  · by_cases hok : estimateMessagesTokens history ≤ maxHistory
    · have heq : trimHistoryByTokens maxHistory minRecent history = history := by
        simp [trimHistoryByTokens, hempty, hok]
      rw [heq]
      exact ⟨Or.inl hok, ⟨0, rfl⟩, List.drop_suffix _ _⟩
    · have heq : trimHistoryByTokens maxHistory minRecent history =
          trimLoop maxHistory minRecent history := by
        simp [trimHistoryByTokens, hempty, hok]
      rw [heq]
      obtain ⟨hbudget, ⟨k, hkle, hk⟩, hmin⟩ :=
        trimLoop_spec maxHistory minRecent history
      refine ⟨hbudget, ⟨k, hk⟩, ?_⟩
      rw [hk]
      have hlen : (trimLoop maxHistory minRecent history).length =
          history.length - k := by rw [hk, List.length_drop]
      rw [hlen] at hmin
      apply drop_suffix_drop
      rcases Nat.le_total minRecent history.length with hle | hle
      · rw [Nat.min_eq_left hle] at hmin
        omega
      · rw [Nat.min_eq_right hle] at hmin
        omega

theorem estimateTokens_replicate_a (n : Nat) :
    estimateTokens (List.replicate n 'a') = (n + 3) / 4 := by
  have h1 : koreanCount (List.replicate n 'a') = 0 := by
    unfold koreanCount
    rw [List.countP_eq_zero]
    intro c hc
    rw [List.eq_of_mem_replicate hc]
    decide
  have h2 : jsLength (List.replicate n 'a') = n := by
    unfold jsLength
    rw [List.map_replicate]
    have : utf16Units 'a' = 1 := by decide
    rw [this, List.sum_replicate, smul_eq_mul, Nat.mul_one]
  unfold estimateTokens
  rw [h1, h2]
  simp

/-- C2: the claimed invariant — after any `pinContext` call the pinned
token total stays within `MAX_PINNED_TOKENS` — fails on the code: with no
pins at all, a text estimated at 4100 tokens is accepted (`true`) and the
resulting single-pin total 4100 exceeds the 4096 budget, because the
eviction branch only rejects when a non-`auto` pin survives. -/
theorem pinContext_budget_violated :
    (pinContext MAX_PINNED_TOKENS []
        (List.replicate 16400 'a') PinSource.user 0).1 = true ∧
    pinnedTokens (pinContext MAX_PINNED_TOKENS []
        (List.replicate 16400 'a') PinSource.user 0).2 = 4100 ∧
    4100 > MAX_PINNED_TOKENS := by
  have htok : estimateTokens (List.replicate 16400 'a') = 4100 := by
    rw [estimateTokens_replicate_a]
  have hres : pinContext MAX_PINNED_TOKENS []
      (List.replicate 16400 'a') PinSource.user 0 =
      (true, [{ text := List.replicate 16400 'a', createdAt := 0,
                source := PinSource.user }]) := by
    unfold pinContext
    rw [htok]
    rfl
  refine ⟨by rw [hres], ?_, by decide⟩
  rw [hres]
  unfold pinnedTokens
  rw [List.foldl_cons, List.foldl_nil, htok]

/-- C3: the claimed `pinContext` contract — `false` exactly when even
evicting every `auto` pin cannot make room, and no mutation when `false` —
fails on the code: with one 4000-token `auto` pin and one 50-token `user`
pin, a 100-token text fits after evicting the `auto` pin
(50 + 100 ≤ 4096), yet the call returns `false`, and it has already
removed the `auto` pin from the session (a partial application). -/
theorem pinContext_eviction_contract_violated :
    pinContext MAX_PINNED_TOKENS
        [{ text := List.replicate 16000 'a', createdAt := 0,
           source := PinSource.auto },
         { text := List.replicate 200 'a', createdAt := 1,
           source := PinSource.user }]
        (List.replicate 400 'a') PinSource.user 2 =
      (false,
       [{ text := List.replicate 200 'a', createdAt := 1,
          source := PinSource.user }]) ∧
    estimateTokens (List.replicate 200 'a') +
      estimateTokens (List.replicate 400 'a') ≤ MAX_PINNED_TOKENS := by
  have h1 : estimateTokens (List.replicate 16000 'a') = 4000 := by
    rw [estimateTokens_replicate_a]
  have h2 : estimateTokens (List.replicate 200 'a') = 50 := by
    rw [estimateTokens_replicate_a]
  have h3 : estimateTokens (List.replicate 400 'a') = 100 := by
    rw [estimateTokens_replicate_a]
  constructor
  · unfold pinContext pinnedTokens
    rw [List.foldl_cons, List.foldl_cons, List.foldl_nil, h1, h2, h3]
    rfl
  · rw [h2, h3]
    decide

theorem toolLoopStep_iterations (provider : List ApiMessage → Response)
    (executeTool : String → String → List Char) (st : LoopState) :
    (toolLoopStep provider executeTool st).iterations = st.iterations + 1 :=
  rfl

theorem toolLoopStep_calls (provider : List ApiMessage → Response)
    (executeTool : String → String → List Char) (st : LoopState) :
    (toolLoopStep provider executeTool st).calls = st.calls + 1 :=
  rfl

theorem toolLoop_bounds (provider : List ApiMessage → Response)
    (executeTool : String → String → List Char) :
    ∀ (fuel : Nat) (st : LoopState),
      st.iterations ≤ (toolLoop provider executeTool fuel st).iterations ∧
      (toolLoop provider executeTool fuel st).iterations ≤
        st.iterations + fuel ∧
      (toolLoop provider executeTool fuel st).calls + st.iterations =
        st.calls + (toolLoop provider executeTool fuel st).iterations := by
  intro fuel
  induction fuel with
  | zero => intro st; simp [toolLoop]
  | succ n ih =>
    intro st
    by_cases hsr : st.response.stopReason = StopReason.toolUse
    · have heq : toolLoop provider executeTool (n + 1) st =
          toolLoop provider executeTool n
            (toolLoopStep provider executeTool st) := by
        simp only [toolLoop, if_pos hsr]
      have h := ih (toolLoopStep provider executeTool st)
      rw [toolLoopStep_iterations, toolLoopStep_calls] at h
      rw [heq]
      omega
    · have heq : toolLoop provider executeTool (n + 1) st = st := by
        simp only [toolLoop, if_neg hsr]
      rw [heq]
      omega

theorem toolLoop_exhausts (provider : List ApiMessage → Response)
    (executeTool : String → String → List Char)
    (hp : ∀ ms, (provider ms).stopReason = StopReason.toolUse) :
    ∀ (fuel : Nat) (st : LoopState),
      st.response.stopReason = StopReason.toolUse →
      (toolLoop provider executeTool fuel st).iterations =
        st.iterations + fuel := by
  intro fuel
  induction fuel with
  | zero => intro st _; simp [toolLoop]
  | succ n ih =>
    intro st hsr
    have heq : toolLoop provider executeTool (n + 1) st =
        toolLoop provider executeTool n
          (toolLoopStep provider executeTool st) := by
      simp only [toolLoop, if_pos hsr]
    have hnext : (toolLoopStep provider executeTool st).response.stopReason =
        StopReason.toolUse := hp _
    rw [heq, ih _ hnext, toolLoopStep_iterations]
    omega

/-- A provider that always answers with a tool-use request. -/
def constToolUseProvider : List ApiMessage → Response := fun _ =>
  { content := [Block.toolUseBlock "t1" "save_memory" "input"],
    stopReason := StopReason.toolUse }

/-- A tool executor returning a fixed result string. -/
def constExecutor : String → String → List Char := fun _ _ => "ok".toList

/-- C4, counterexample: when the provider keeps answering `tool_use`, the
turn makes one initial provider call plus one per loop iteration — exactly
`MAX_TOOL_ITERATIONS + 1 = 11` provider calls in total, so a
`(MAX+1)`-th provider call *is* issued (the last one inside iteration 10,
whose response is then discarded in favour of the fallback string). -/
theorem chat_issues_max_plus_one_calls :
    (chat constToolUseProvider constExecutor []).providerCalls =
      MAX_TOOL_ITERATIONS + 1 ∧
    (chat constToolUseProvider constExecutor []).text =
      tooManyToolIterationsMessage := by
  constructor <;> rfl

/-- C4 (amended): the tool-use loop runs at most
`MAX_TOOL_ITERATIONS = 10` iterations; when the provider keeps answering
`tool_use` the function returns the fixed "too many tool iterations"
fallback string after exactly `MAX_TOOL_ITERATIONS + 1` provider calls
(one initial call plus one per iteration), and it never issues a
`(MAX+2)`-th call. -/
theorem chat_eq (provider : List ApiMessage → Response)
    (executeTool : String → String → List Char)
    (messages : List ApiMessage) :
    chat provider executeTool messages =
      (if (toolLoop provider executeTool MAX_TOOL_ITERATIONS
            { response := provider messages, msgs := messages, calls := 1,
              iterations := 0 }).iterations ≥ MAX_TOOL_ITERATIONS then
        { text := tooManyToolIterationsMessage,
          providerCalls := (toolLoop provider executeTool MAX_TOOL_ITERATIONS
            { response := provider messages, msgs := messages, calls := 1,
              iterations := 0 }).calls,
          loopIterations := (toolLoop provider executeTool MAX_TOOL_ITERATIONS
            { response := provider messages, msgs := messages, calls := 1,
              iterations := 0 }).iterations }
      else
        { text := extractText (toolLoop provider executeTool
            MAX_TOOL_ITERATIONS
            { response := provider messages, msgs := messages, calls := 1,
              iterations := 0 }).response.content,
          providerCalls := (toolLoop provider executeTool MAX_TOOL_ITERATIONS
            { response := provider messages, msgs := messages, calls := 1,
              iterations := 0 }).calls,
          loopIterations := (toolLoop provider executeTool MAX_TOOL_ITERATIONS
            { response := provider messages, msgs := messages, calls := 1,
              iterations := 0 }).iterations }) :=
  rfl

theorem chat_tool_loop_budget (provider : List ApiMessage → Response)
    (executeTool : String → String → List Char)
    (messages : List ApiMessage) :
    (chat provider executeTool messages).loopIterations ≤
      MAX_TOOL_ITERATIONS ∧
    (chat provider executeTool messages).providerCalls ≤
      MAX_TOOL_ITERATIONS + 1 ∧
    ((∀ ms, (provider ms).stopReason = StopReason.toolUse) →
      (chat provider executeTool messages).text =
        tooManyToolIterationsMessage ∧
      (chat provider executeTool messages).providerCalls =
        MAX_TOOL_ITERATIONS + 1) := by
  have hb := toolLoop_bounds provider executeTool MAX_TOOL_ITERATIONS
    { response := provider messages, msgs := messages, calls := 1,
      iterations := 0 }
  simp only at hb
  constructor
  · rw [chat_eq]
    split <;> simp only [MAX_TOOL_ITERATIONS] at hb ⊢ <;> omega
  constructor
  · rw [chat_eq]
    split <;> simp only [MAX_TOOL_ITERATIONS] at hb ⊢ <;> omega
  · intro hp
    have hexh := toolLoop_exhausts provider executeTool hp MAX_TOOL_ITERATIONS
      { response := provider messages, msgs := messages, calls := 1,
        iterations := 0 } (hp messages)
    simp only at hexh
    have hcond : (toolLoop provider executeTool MAX_TOOL_ITERATIONS
        { response := provider messages, msgs := messages, calls := 1,
          iterations := 0 }).iterations ≥ MAX_TOOL_ITERATIONS := by
      rw [hexh]
      omega
    constructor
    · rw [chat_eq, if_pos hcond]
    · rw [chat_eq, if_pos hcond]
      simp only [MAX_TOOL_ITERATIONS] at hb hexh ⊢
      omega

/-- C4 witness: the amended theorem applied to the constant tool-use
provider. -/
theorem chat_tool_loop_budget_witness :
    (chat constToolUseProvider constExecutor []).text =
      tooManyToolIterationsMessage ∧
    (chat constToolUseProvider constExecutor []).providerCalls =
      MAX_TOOL_ITERATIONS + 1 :=
  (chat_tool_loop_budget constToolUseProvider constExecutor []).2.2
    (fun _ => rfl)

/-- C5: when the streaming turn's final message stops with `tool_use`,
`chatSmart` discards the accumulated stream text and returns exactly the
text that the non-streaming `chat` produces on the same messages with
`usedTools = true`; otherwise it returns the accumulated stream text with
`usedTools = false`. -/
theorem chatSmart_refines_chat
    (streamProvider : List ApiMessage → StreamOutcome)
    (provider : List ApiMessage → Response)
    (executeTool : String → String → List Char)
    (messages : List ApiMessage) :
    ((streamProvider messages).stopReason = StopReason.toolUse →
      chatSmart streamProvider provider executeTool messages =
        { text := (chat provider executeTool messages).text,
          usedTools := true }) ∧
    ((streamProvider messages).stopReason ≠ StopReason.toolUse →
      chatSmart streamProvider provider executeTool messages =
        { text := (streamProvider messages).chunks.foldl
            (fun acc c => acc ++ c) [],
          usedTools := false }) := by
  constructor
  · intro h
    unfold chatSmart
    rw [if_pos h]
  · intro h
    unfold chatSmart
    rw [if_neg h]

/-- A streaming oracle that emits two chunks and stops for tool use. -/
def constStreamToolUse : List ApiMessage → StreamOutcome := fun _ =>
  { chunks := ["th".toList, "ink".toList], stopReason := StopReason.toolUse }

/-- A streaming oracle that emits two chunks and ends normally. -/
def constStreamEndTurn : List ApiMessage → StreamOutcome := fun _ =>
  { chunks := ["hi ".toList, "there".toList], stopReason := StopReason.endTurn }

/-- C5 witness: both branches of the refinement theorem at concrete
oracles. -/
theorem chatSmart_refines_chat_witness :
    chatSmart constStreamToolUse constToolUseProvider constExecutor [] =
      { text := (chat constToolUseProvider constExecutor []).text,
        usedTools := true } ∧
    chatSmart constStreamEndTurn constToolUseProvider constExecutor [] =
      { text := ("hi ".toList ++ "there".toList), usedTools := false } := by
  constructor
  · exact (chatSmart_refines_chat constStreamToolUse constToolUseProvider
      constExecutor []).1 rfl
  · have h := (chatSmart_refines_chat constStreamEndTurn constToolUseProvider
      constExecutor []).2 (by decide)
    simpa using h

/-- C7: `cancelAgent` on a running agent sets the status to `cancelled`
(with `completedAt`) and only afterwards fires the abort signal (the event
list records the program order); and once an agent is `cancelled`, a
late-arriving API result or error is discarded — the status never becomes
`completed` or `failed` and no result message is delivered. -/
theorem cancelAgent_before_abort_and_discard (a b : Agent)
    (content : List Block) (err : List Char)
    (ha : a.status = AgentStatus.running)
    (hb : b.status = AgentStatus.cancelled) :
    (cancelAgent a).1.status = AgentStatus.cancelled ∧
    (cancelAgent a).1.hasCompletedAt = true ∧
    (cancelAgent a).2.1 = true ∧
    (cancelAgent a).2.2 =
      [CancelEvent.setStatusCancelled, CancelEvent.fireAbort] ∧
    runAgentOnSuccess b content = (b, none) ∧
    runAgentOnError b err = (b, none) := by
  have hne : ¬a.status ≠ AgentStatus.running := by simp [ha]
  refine ⟨?_, ?_, ?_, ?_, ?_, ?_⟩ <;>
    simp [cancelAgent, runAgentOnSuccess, runAgentOnError, hne, hb]

/-- A concrete running agent. -/
def sampleRunningAgent : Agent :=
  { id := "a1b2c3d4", task := "search the web".toList, chatId := 42,
    status := AgentStatus.running, hasCompletedAt := false,
    result := none, error := none }

/-- A concrete cancelled agent. -/
def sampleCancelledAgent : Agent :=
  { sampleRunningAgent with status := AgentStatus.cancelled,
                            hasCompletedAt := true }

/-- C7 witness: the theorem at the concrete agents. -/
theorem cancelAgent_before_abort_and_discard_witness :
    (cancelAgent sampleRunningAgent).1.status = AgentStatus.cancelled ∧
    (cancelAgent sampleRunningAgent).1.hasCompletedAt = true ∧
    (cancelAgent sampleRunningAgent).2.1 = true ∧
    (cancelAgent sampleRunningAgent).2.2 =
      [CancelEvent.setStatusCancelled, CancelEvent.fireAbort] ∧
    runAgentOnSuccess sampleCancelledAgent [Block.text "late".toList] =
      (sampleCancelledAgent, none) ∧
    runAgentOnError sampleCancelledAgent "boom".toList =
      (sampleCancelledAgent, none) :=
  cancelAgent_before_abort_and_discard sampleRunningAgent
    sampleCancelledAgent [Block.text "late".toList] "boom".toList rfl rfl

/-- C10: loading the persisted job store is total at the public
interface: `loadJobs` returns `[]` when the file is absent, unreadable or
holds invalid JSON, and exactly the store's `jobs` array when the file
parses to an object carrying one; `loadStore` returns `{ jobs: [] }` in
every failure case and the parsed store otherwise. -/
theorem loadJobs_loadStore_total (v : JsValue) (l : List JsValue)
    (fields : List (List Char × JsValue))
    (hjobs : lookupField fields "jobs".toList = some (JsValue.arr l)) :
    loadJobs JobFileState.absent = JsValue.arr [] ∧
    loadJobs JobFileState.unreadable = JsValue.arr [] ∧
    loadJobs JobFileState.invalidJson = JsValue.arr [] ∧
    loadStore JobFileState.absent =
      JsValue.obj [("jobs".toList, JsValue.arr [])] ∧
    loadStore JobFileState.unreadable =
      JsValue.obj [("jobs".toList, JsValue.arr [])] ∧
    loadStore JobFileState.invalidJson =
      JsValue.obj [("jobs".toList, JsValue.arr [])] ∧
    loadJobs (JobFileState.holdsJson (JsValue.obj fields)) = JsValue.arr l ∧
    loadStore (JobFileState.holdsJson v) = v := by
  refine ⟨rfl, rfl, rfl, rfl, rfl, rfl, ?_, rfl⟩
  simp only [loadJobs, jsGetField, hjobs, Option.getD]
  rfl

/-- C10 witness: the theorem at a concrete one-job store object. -/
theorem loadJobs_loadStore_total_witness :
    loadJobs JobFileState.absent = JsValue.arr [] ∧
    loadJobs JobFileState.unreadable = JsValue.arr [] ∧
    loadJobs JobFileState.invalidJson = JsValue.arr [] ∧
    loadStore JobFileState.absent =
      JsValue.obj [("jobs".toList, JsValue.arr [])] ∧
    loadStore JobFileState.unreadable =
      JsValue.obj [("jobs".toList, JsValue.arr [])] ∧
    loadStore JobFileState.invalidJson =
      JsValue.obj [("jobs".toList, JsValue.arr [])] ∧
    loadJobs (JobFileState.holdsJson (JsValue.obj
      [("version".toList, JsValue.num 1),
       ("jobs".toList, JsValue.arr [JsValue.str "job1".toList])])) =
      JsValue.arr [JsValue.str "job1".toList] ∧
    loadStore (JobFileState.holdsJson (JsValue.num 7)) = JsValue.num 7 :=
  loadJobs_loadStore_total (JsValue.num 7) [JsValue.str "job1".toList]
    [("version".toList, JsValue.num 1),
     ("jobs".toList, JsValue.arr [JsValue.str "job1".toList])] rfl

/-- C1: the claim — `"0 9 * * MON"` next-runs only on Mondays at 09:00,
and in general a computed next run obeys the `dayOfWeek` restriction when
`dayOfMonth` is the wildcard — fails on the code.  From Tuesday
2025-01-07 08:59 (epoch ms 1736240340000 in the host-local frame; the
`timezone` argument is ignored by `getNextCronRun`), the next run returned
is epoch minute 28937340 = Tuesday 2025-01-07 09:00: the candidate test
applies `dayOfMonth OR dayOfWeek` even for a wildcard `dayOfMonth`, whose
value set 1..31 contains every day, so the `MON` restriction
(`dayOfWeek.values = [1]`) never filters anything.  This contradicts the
parser's own doc comment `"0 9 * * MON" = every Monday at 9:00`. -/
theorem getNextCronRun_dayOfWeek_ignored :
    getNextCronRun "0 9 * * MON".toList 1736240340000 = some 28937340 ∧
    dayOfWeekOf 28937340 = 2 ∧
    minuteOf 28937340 = 0 ∧
    hourOf 28937340 = 9 ∧
    civilFromDays (28937340 / 1440) = (2025, 1, 7) ∧
    (parseCronExpression "0 9 * * MON".toList).map
      (fun p => p.dayOfWeek.values) = some [1] ∧
    dayOfWeekOf (1736240340000 / 60000) = 2 := by
  refine ⟨by rfl, by rfl, by rfl, by rfl, by rfl, by rfl, by rfl⟩

/-- C6, counterexample: for an `every` schedule with `everyMs = 60000`,
`startMs = 0` and `now = 90000`, the grid formula gives
`0 + (floor(90000/60000) + 1) * 60000 = 120000`, but the store's
`calculateNextRun` — one of the two implementations the claim covers —
returns `now + intervalMs = 150000`. -/
theorem calculateNextRun_not_grid :
    calculateNextRun
      (Schedule.every { everyMs := some 60000, intervalMs := none,
                        startMs := some 0 }) 90000 = some 150000 ∧
    (0 + (Int.fdiv (90000 - 0) 60000 + 1) * 60000 : Int) = 120000 ∧
    (150000 : Int) ≠ 120000 := by
  refine ⟨by rfl, by rfl, by decide⟩

/-- C6 (amended): the parser's `getNextRun` does compute
`startMs + (floor((now − startMs)/everyMs) + 1) · everyMs`, which for a
positive interval and `startMs ≤ now` is the first grid point strictly
after `now`; the store's `calculateNextRun`, however, returns
`now + everyMs` in that situation (the claimed formula only when `now`
falls exactly on the grid). -/
theorem everyNextRun_spec (everyMs startMs nowMs : Int)
    (hpos : 0 < everyMs) (hle : startMs ≤ nowMs) :
    getNextRun
        (Schedule.every { everyMs := some everyMs, intervalMs := none,
                          startMs := some startMs }) nowMs =
      some (startMs + (Int.fdiv (nowMs - startMs) everyMs + 1) * everyMs) ∧
    nowMs < startMs + (Int.fdiv (nowMs - startMs) everyMs + 1) * everyMs ∧
    (∀ k : Int, nowMs < startMs + k * everyMs →
      startMs + (Int.fdiv (nowMs - startMs) everyMs + 1) * everyMs ≤
        startMs + k * everyMs) ∧
    calculateNextRun
        (Schedule.every { everyMs := some everyMs, intervalMs := none,
                          startMs := some startMs }) nowMs =
      some (nowMs + everyMs) := by
  have hne : everyMs ≠ 0 := ne_of_gt hpos
  have hmod_lt : (nowMs - startMs).fmod everyMs < everyMs :=
    Int.fmod_lt_of_pos _ hpos
  have hmod_nonneg : 0 ≤ (nowMs - startMs).fmod everyMs :=
    Int.fmod_nonneg' (nowMs - startMs) hpos
  have hdiv : everyMs * Int.fdiv (nowMs - startMs) everyMs +
      (nowMs - startMs).fmod everyMs = nowMs - startMs :=
    Int.fdiv_add_fmod _ _
  refine ⟨rfl, ?_, ?_, ?_⟩
  · nlinarith [hdiv, hmod_lt]
  · intro k hk
    have hgt : Int.fdiv (nowMs - startMs) everyMs < k := by
      by_contra hnot
      push_neg at hnot
      have : k * everyMs ≤ Int.fdiv (nowMs - startMs) everyMs * everyMs :=
        mul_le_mul_of_nonneg_right hnot (le_of_lt hpos)
      nlinarith [hdiv, hmod_nonneg]
    have : Int.fdiv (nowMs - startMs) everyMs + 1 ≤ k := hgt
    have := mul_le_mul_of_nonneg_right this (le_of_lt hpos)
    linarith
  · simp only [calculateNextRun, resolveIntervalMs, Option.getD]
    rw [if_pos hne, if_neg (not_lt.mpr hle)]

/-- C6 witness: the amended theorem at `everyMs = 60000`, `startMs = 0`,
`now = 90000`. -/
theorem everyNextRun_spec_witness :
    getNextRun
        (Schedule.every { everyMs := some 60000, intervalMs := none,
                          startMs := some 0 }) 90000 =
      some (0 + (Int.fdiv (90000 - 0) 60000 + 1) * 60000) ∧
    (90000 : Int) < 0 + (Int.fdiv (90000 - 0) 60000 + 1) * 60000 ∧
    (∀ k : Int, (90000 : Int) < 0 + k * 60000 →
      0 + (Int.fdiv (90000 - 0) 60000 + 1) * 60000 ≤ 0 + k * 60000) ∧
    calculateNextRun
        (Schedule.every { everyMs := some 60000, intervalMs := none,
                          startMs := some 0 }) 90000 =
      some (90000 + 60000) :=
  everyNextRun_spec 60000 0 90000 (by decide) (by decide)

/-! ### Round trip of the JSON string quoting -/

theorem hexVal_hexDigitChar (k : Nat) (h : k < 16) :
    hexVal (hexDigitChar k) = some k := by
  interval_cases k <;> decide

theorem hexDigitChar_ne_newline (k : Nat) (h : k < 16) :
    hexDigitChar k ≠ '\n' := by
  interval_cases k <;> decide

theorem parseJsonStringBody_cons_plain (c : Char) (h1 : c ≠ '"')
    (h2 : c ≠ '\\') (h3 : ¬ c.toNat < 0x20) (l : List Char) :
    parseJsonStringBody (c :: l) =
      (parseJsonStringBody l).map (fun p => (c :: p.1, p.2)) := by
  rw [parseJsonStringBody.eq_def]
  split
  · simp_all
  · simp_all
  · simp_all
  · rename_i heq
    obtain ⟨h4, h5⟩ : c = _ ∧ l = _ := by
      refine ⟨?_, ?_⟩ <;> injection heq
    subst h4
    subst h5
    rw [if_neg h3]

theorem parseJsonStringBody_unicode (d1 d2 : Char) (v1 v2 : Nat)
    (h1 : hexVal d1 = some v1) (h2 : hexVal d2 = some v2)
    (hlt : 16 * v1 + v2 < 0xD800) (l : List Char) :
    parseJsonStringBody ('\\' :: 'u' :: '0' :: '0' :: d1 :: d2 :: l) =
      (parseJsonStringBody l).map
        (fun p => (Char.ofNat (16 * v1 + v2) :: p.1, p.2)) := by
  have hred : parseJsonStringBody ('\\' :: 'u' :: '0' :: '0' :: d1 :: d2 :: l) =
      (match hexVal '0', hexVal '0', hexVal d1, hexVal d2 with
      | some a, some b, some c, some d =>
        let n := 4096 * a + 256 * b + 16 * c + d
        if 0xD800 ≤ n ∧ n < 0xE000 then none
        else (parseJsonStringBody l).map (fun p => (Char.ofNat n :: p.1, p.2))
      | _, _, _, _ => none) := rfl
  rw [hred, h1, h2]
  have h0 : hexVal '0' = some 0 := rfl
  rw [h0]
  simp only
  rw [if_neg (by omega)]
  norm_num

/-- One encoded character parses back to itself. -/
theorem escChar_roundtrip (c : Char) (tail : List Char) :
    parseJsonStringBody (escChar c ++ tail) =
      (parseJsonStringBody tail).map (fun p => (c :: p.1, p.2)) := by
  unfold escChar
  split_ifs with hq hb h8 h9 h10 h12 h13 hctl
  · subst hq; rfl
  · subst hb; rfl
  · subst h8; rfl
  · subst h9; rfl
  · subst h10; rfl
  · subst h12; rfl
  · subst h13; rfl
  · have hv1 : c.toNat / 16 < 16 := by omega
    have hv2 : c.toNat % 16 < 16 := by omega
    have heq : parseJsonStringBody
        (('\\' :: 'u' :: '0' :: '0' :: hexDigitChar (c.toNat / 16) ::
          hexDigitChar (c.toNat % 16) :: []) ++ tail) =
        (parseJsonStringBody tail).map
          (fun p => (Char.ofNat (16 * (c.toNat / 16) + c.toNat % 16) ::
            p.1, p.2)) := by
      exact parseJsonStringBody_unicode _ _ _ _
        (hexVal_hexDigitChar _ hv1) (hexVal_hexDigitChar _ hv2)
        (by omega) tail
    have hn : 16 * (c.toNat / 16) + c.toNat % 16 = c.toNat := by omega
    rw [hn] at heq
    rw [Char.ofNat_toNat] at heq
    exact heq
  · have : ¬ c.toNat < 0x20 := hctl
    simpa using parseJsonStringBody_cons_plain c hq hb this tail

/-- The whole encoded string parses back, handing over at the closing
quote. -/
theorem escapeJson_roundtrip (s : List Char) (rest : List Char) :
    parseJsonStringBody (escapeJson s ++ '"' :: rest) = some (s, rest) := by
  induction s with
  | nil => rfl
  | cons c s' ih =>
    have hesc : escapeJson (c :: s') = escChar c ++ escapeJson s' := by
      simp [escapeJson]
    rw [hesc, List.append_assoc, escChar_roundtrip, ih]
    rfl

theorem escChar_no_newline (c : Char) : '\n' ∉ escChar c := by
  unfold escChar
  split_ifs with hq hb h8 h9 h10 h12 h13 hctl
  · decide
  · decide
  · decide
  · decide
  · subst h10; decide
  · decide
  · decide
  · intro hmem
    simp only [List.mem_cons, List.not_mem_nil, or_false] at hmem
    rcases hmem with h | h | h | h | h | h
    · exact absurd h.symm (by decide)
    · exact absurd h.symm (by decide)
    · exact absurd h.symm (by decide)
    · exact absurd h.symm (by decide)
    · exact (hexDigitChar_ne_newline _ (by omega)) h.symm
    · exact (hexDigitChar_ne_newline _ (by omega)) h.symm
  · intro hmem
    simp only [List.mem_cons, List.not_mem_nil, or_false] at hmem
    have : c.toNat = 10 := by rw [← hmem]; rfl
    omega

theorem escapeJson_no_newline (s : List Char) : '\n' ∉ escapeJson s := by
  intro hmem
  unfold escapeJson at hmem
  rw [List.mem_flatten] at hmem
  obtain ⟨chunk, hchunk, hmem'⟩ := hmem
  rw [List.mem_map] at hchunk
  obtain ⟨c, _, rfl⟩ := hchunk
  exact escChar_no_newline c hmem'

/-! ### Round trip of the timestamp digits -/

theorem digitVal_digitChar (d : Nat) (h : d < 10) :
    digitVal (digitChar d) = d := by
  interval_cases d <;> decide

theorem isDigitChar_digitChar (d : Nat) (h : d < 10) :
    isDigitChar (digitChar d) = true := by
  interval_cases d <;> decide

/-- Folding the digit accumulator over a list shifts an initial
accumulator by `10 ^ length`. -/
theorem foldl_digits_shift (l : List Char) :
    ∀ acc : Nat,
      l.foldl (fun a c => a * 10 + digitVal c) acc =
        acc * 10 ^ l.length + l.foldl (fun a c => a * 10 + digitVal c) 0 := by
  induction l with
  | nil => intro acc; simp
  | cons c l ih =>
    intro acc
    rw [List.foldl_cons, List.foldl_cons, ih (acc * 10 + digitVal c),
      ih (0 * 10 + digitVal c)]
    ring_nf
    rw [List.length_cons]
    ring

theorem natDigitsAux_spec (fuel : Nat) :
    ∀ n : Nat, n < 10 ^ fuel →
      (natDigitsAux fuel n).foldl (fun a c => a * 10 + digitVal c) 0 = n ∧
      (∀ c ∈ natDigitsAux fuel n, isDigitChar c = true) := by
  induction fuel with
  | zero =>
    intro n hn
    interval_cases n
    exact ⟨rfl, by intro c hc; simp [natDigitsAux] at hc⟩
  | succ fuel ih =>
    intro n hn
    by_cases h0 : n = 0
    · subst h0
      constructor
      · rfl
      · intro c hc; simp [natDigitsAux] at hc
    · have heq : natDigitsAux (fuel + 1) n =
          natDigitsAux fuel (n / 10) ++ [digitChar (n % 10)] := by
        simp only [natDigitsAux, if_neg h0]
      have hdiv : n / 10 < 10 ^ fuel := by
        rw [pow_succ] at hn
        omega
      obtain ⟨hval, hall⟩ := ih (n / 10) hdiv
      constructor
      · rw [heq, List.foldl_append, hval, List.foldl_cons, List.foldl_nil,
          digitVal_digitChar _ (Nat.mod_lt _ (by omega))]
        omega
      · intro c hc
        rw [heq, List.mem_append] at hc
        rcases hc with hc | hc
        · exact hall c hc
        · rw [List.mem_singleton] at hc
          subst hc
          exact isDigitChar_digitChar _ (Nat.mod_lt _ (by omega))

theorem natToChars_spec (n : Nat) :
    (natToChars n).foldl (fun a c => a * 10 + digitVal c) 0 = n ∧
    (∀ c ∈ natToChars n, isDigitChar c = true) ∧
    natToChars n ≠ [] := by
  by_cases h0 : n = 0
  · subst h0
    refine ⟨rfl, ?_, by decide⟩
    intro c hc
    rw [show natToChars 0 = ['0'] from rfl, List.mem_singleton] at hc
    subst hc
    rfl
  · have hlt : n < 10 ^ (n + 1) :=
      lt_of_lt_of_le (Nat.lt_pow_self (by omega) n)
        (Nat.pow_le_pow_right (by omega) (by omega))
    obtain ⟨hval, hall⟩ := natDigitsAux_spec (n + 1) n hlt
    have heq : natToChars n = natDigitsAux (n + 1) n := by
      simp only [natToChars, if_neg h0]
    have hne : natDigitsAux (n + 1) n ≠ [] := by
      have : natDigitsAux (n + 1) n =
          natDigitsAux n (n / 10) ++ [digitChar (n % 10)] := by
        simp only [natDigitsAux, if_neg h0]
      rw [this]
      simp
    exact ⟨by rw [heq]; exact hval, by rw [heq]; exact hall, by rw [heq]; exact hne⟩

theorem takeWhile_append_fail {p : Char → Bool} (l : List Char)
    (h : ∀ x ∈ l, p x = true) (c : Char) (hc : p c = false)
    (r : List Char) :
    (l ++ c :: r).takeWhile p = l ∧ (l ++ c :: r).dropWhile p = c :: r := by
  induction l with
  | nil => simp [List.takeWhile_cons, List.dropWhile_cons, hc]
  | cons x l ih =>
    have hx : p x = true := h x (List.mem_cons_self x l)
    have ih' := ih (fun y hy => h y (List.mem_cons_of_mem x hy))
    constructor
    · simp [List.takeWhile_cons, hx, ih'.1]
    · simp [List.dropWhile_cons, hx, ih'.2]

/-- Reading back the serialized timestamp stops at the first non-digit. -/
theorem parseNatAt_natToChars (n : Nat) (c : Char)
    (hc : isDigitChar c = false) (r : List Char) :
    parseNatAt (natToChars n ++ c :: r) = some (n, c :: r) := by
  obtain ⟨hval, hall, hne⟩ := natToChars_spec n
  obtain ⟨htake, hdrop⟩ := takeWhile_append_fail (natToChars n) hall c hc r
  unfold parseNatAt
  rw [htake, hdrop]
  rw [if_neg (by simpa using hne)]
  rw [hval]

/-! ### Round trip of a persisted line -/

theorem expectLit_append (lit : List Char) (rest : List Char) :
    expectLit lit (lit ++ rest) = some rest := by
  induction lit with
  | nil => rfl
  | cons c l ih => simp [expectLit, ih]

theorem escapeJson_roleChars (r : Role) :
    escapeJson (roleChars r) = roleChars r := by
  cases r <;> rfl

/-- A line written by `appendMessage` parses back to the message. -/
theorem parsePersistedLine_encodeLine (role : Role) (content : List Char)
    (ts : Nat) :
    parsePersistedLine (encodeLine role content ts) =
      some { role := roleChars role, content := content, timestamp := ts } := by
  have hB : "\",\"content\":\"".toList =
      '"' :: ",\"content\":\"".toList := rfl
  have hC : "\",\"timestamp\":".toList =
      '"' :: ",\"timestamp\":".toList := rfl
  unfold parsePersistedLine encodeLine
  rw [hB, hC]
  simp only [List.append_assoc, List.cons_append]
  rw [expectLit_append, Option.some_bind]
  rw [escapeJson_roleChars, ← escapeJson_roleChars role]
  rw [escapeJson_roundtrip, Option.some_bind]
  rw [escapeJson_roleChars]
  rw [expectLit_append, Option.some_bind]
  rw [escapeJson_roundtrip, Option.some_bind]
  rw [expectLit_append, Option.some_bind]
  rw [show ("\x7d".toList : List Char) = '\x7d' :: [] from rfl]
  rw [parseNatAt_natToChars ts '\x7d' rfl, Option.some_bind]
  rfl

/-! ### Line structure of the JSONL file -/

/-- The reachable states of a chat's JSONL file: every write appends a
line terminated by `"\n"`, so the file is empty or ends with a newline. -/
def endsWithNewline (file : List Char) : Prop :=
  file = [] ∨ file.getLast? = some '\n'

theorem splitOnChar_ne_nil (sep : Char) (l : List Char) :
    splitOnChar sep l ≠ [] := by
  cases l with
  | nil => simp [splitOnChar]
  | cons c cs =>
    by_cases h : c = sep
    · simp [splitOnChar, h]
    · simp only [splitOnChar, if_neg h]
      split <;> simp_all

/-- Splitting a prefix that contains no separator followed by a separator
peels off exactly that prefix. -/
theorem splitOnChar_peel (sep : Char) (line : List Char)
    (h : sep ∉ line) (rest : List Char) :
    splitOnChar sep (line ++ sep :: rest) = line :: splitOnChar sep rest := by
  induction line with
  | nil => simp [splitOnChar]
  | cons c cs ih =>
    have hc : c ≠ sep := fun hcc => h (hcc ▸ List.mem_cons_self c cs)
    have hcs : sep ∉ cs := fun hm => h (List.mem_cons_of_mem c hm)
    rw [List.cons_append]
    simp only [splitOnChar, if_neg hc, ih hcs]

/-- `parseRecords` ignores a leading newline. -/
theorem parseRecords_nil : parseRecords [] = [] := rfl

theorem parseRecords_cons_newline (x : List Char) :
    parseRecords ('\n' :: x) = parseRecords x := by
  unfold parseRecords
  have : splitOnChar '\n' ('\n' :: x) = [] :: splitOnChar '\n' x := by
    simp [splitOnChar]
  rw [this, List.filterMap_cons]
  simp [trimChars]

/-- `parseRecords` of a single headless line plus trailing data. -/
theorem parseRecords_line (line : List Char) (h : '\n' ∉ line)
    (x : List Char) :
    parseRecords (line ++ '\n' :: x) =
      (if (trimChars line).isEmpty then [] else
        match parsePersistedLine line with
        | some m => [m]
        | none => []) ++ parseRecords x := by
  unfold parseRecords
  rw [splitOnChar_peel '\n' line h x, List.filterMap_cons]
  by_cases hb : (trimChars line).isEmpty = true
  · simp [hb]
  · cases hp : parsePersistedLine line <;> simp [hb, hp]

/-- Decompose a file containing a newline at its first newline. -/
theorem exists_first_line (file : List Char) (hmem : '\n' ∈ file) :
    ∃ line file', file = line ++ '\n' :: file' ∧ '\n' ∉ line := by
  induction file with
  | nil => simp at hmem
  | cons c cs ihf =>
    by_cases hcnl : c = '\n'
    · exact ⟨[], cs, by rw [hcnl]; rfl, by simp⟩
    · have hmem' : '\n' ∈ cs := by
        rcases List.mem_cons.mp hmem with hx | hx
        · exact absurd hx.symm hcnl
        · exact hx
      obtain ⟨l', f', hsp, hnl⟩ := ihf hmem'
      refine ⟨c :: l', f', by rw [hsp]; rfl, ?_⟩
      intro hx
      rcases List.mem_cons.mp hx with hy | hy
      · exact hcnl hy.symm
      · exact hnl hy

/-- A file in a reachable state (ending with a newline) splits cleanly
from whatever is appended after it. -/
theorem parseRecords_append (file : List Char) (h : endsWithNewline file)
    (rest : List Char) :
    parseRecords (file ++ rest) = parseRecords file ++ parseRecords rest := by
  have main : ∀ (n : Nat) (f : List Char), f.length ≤ n →
      endsWithNewline f →
      parseRecords (f ++ rest) = parseRecords f ++ parseRecords rest := by
    intro n
    induction n with
    | zero =>
      intro f hlen hf
      have : f = [] := List.eq_nil_of_length_eq_zero (Nat.le_zero.mp hlen)
      subst this
      simp [parseRecords_nil]
    | succ n ih =>
      intro f hlen hf
      rcases hf with hnil | hlast
      · subst hnil
        simp [parseRecords_nil]
      · have hne : f ≠ [] := by
          intro hx
          rw [hx] at hlast
          simp at hlast
        have hmem : '\n' ∈ f := by
          have hgm := List.getLast_mem hne
          rw [List.getLast?_eq_getLast f hne] at hlast
          rwa [Option.some_inj.mp hlast] at hgm
        obtain ⟨line, file', hsplit, hnoline⟩ := exists_first_line f hmem
        subst hsplit
        have hends' : endsWithNewline file' := by
          cases file' with
          | nil => exact Or.inl rfl
          | cons x xs =>
            refine Or.inr ?_
            rw [List.getLast?_append, List.getLast?_cons_cons] at hlast
            cases hfl : (x :: xs).getLast? with
            | none =>
              exact absurd (List.getLast?_eq_none_iff.mp hfl)
                (List.cons_ne_nil x xs)
            | some c =>
              rw [hfl] at hlast
              simp only [Option.or_some] at hlast
              exact hlast
        have hlen' : file'.length ≤ n := by
          rw [List.length_append, List.length_cons] at hlen
          omega
        rw [List.append_assoc, List.cons_append]
        rw [parseRecords_line line hnoline (file' ++ rest)]
        rw [ih file' hlen' hends']
        rw [parseRecords_line line hnoline file']
        rw [List.append_assoc]
  exact main file.length file (Nat.le_refl _) h

theorem loadHistory_zero (file : List Char) :
    loadHistory file 0 = parseRecords file := by
  simp [loadHistory]

theorem encodeLine_no_newline (role : Role) (content : List Char)
    (ts : Nat) : '\n' ∉ encodeLine role content ts := by
  intro hmem
  unfold encodeLine at hmem
  simp only [List.mem_append] at hmem
  rcases hmem with ((((((hx | hx) | hx) | hx) | hx) | hx) | hx)
  · exact absurd hx (by decide)
  · exact escapeJson_no_newline _ hx
  · exact absurd hx (by decide)
  · exact escapeJson_no_newline _ hx
  · exact absurd hx (by decide)
  · have := (natToChars_spec ts).2.1 _ hx
    exact absurd this (by decide)
  · exact absurd hx (by decide)

theorem trimChars_not_empty (l : List Char) (c : Char) (hc : c ∈ l)
    (hw : isWsChar c = false) : (trimChars l).isEmpty = false := by
  rw [Bool.eq_false_iff]
  intro hempty
  have hnil : trimChars l = [] := List.isEmpty_iff.mp hempty
  unfold trimChars at hnil
  rw [List.reverse_eq_nil_iff, List.dropWhile_eq_nil_iff] at hnil
  have hall : ∀ x ∈ l.dropWhile isWsChar, isWsChar x = true := by
    intro x hx
    exact hnil x (by rwa [List.mem_reverse])
  have hl : ∀ x ∈ l, isWsChar x = true := by
    intro x hx
    rw [← List.takeWhile_append_dropWhile (p := isWsChar) (l := l),
      List.mem_append] at hx
    rcases hx with hx | hx
    · exact List.mem_takeWhile_imp hx
    · exact hall x hx
  rw [hl c hc] at hw
  exact Bool.noConfusion hw

/-- C9: appending a message via `appendMessage` and loading with
`loadHistory(chatId, 0)` returns all previously parsed records followed by
exactly the appended message (role, content and the append-time timestamp),
for arbitrary content — newlines, quotes, control characters and non-ASCII
text included — because the JSON quoting keeps each message on one line.
The hypothesis `endsWithNewline file` captures the reachable file states:
every line the writer emits is newline-terminated. -/
theorem appendMessage_loadHistory_roundtrip (file : List Char)
    (role : Role) (content : List Char) (ts : Nat)
    (h : endsWithNewline file) :
    loadHistory (appendMessage file role content ts) 0 =
      loadHistory file 0 ++
        [{ role := roleChars role, content := content, timestamp := ts }] ∧
    (loadHistory (appendMessage file role content ts) 0).getLast? =
      some { role := roleChars role, content := content, timestamp := ts } := by
  have henc : parseRecords (encodeLine role content ts ++ '\n' :: []) =
      [{ role := roleChars role, content := content, timestamp := ts }] := by
    rw [parseRecords_line _ (encodeLine_no_newline role content ts) []]
    rw [trimChars_not_empty _ '\x7b' ?hmem (by decide)]
    case hmem =>
      unfold encodeLine
      simp only [List.mem_append]
      left; left; left; left; left; left
      decide
    rw [parsePersistedLine_encodeLine]
    rfl
  have hmain : loadHistory (appendMessage file role content ts) 0 =
      loadHistory file 0 ++
        [{ role := roleChars role, content := content, timestamp := ts }] := by
    rw [loadHistory_zero, loadHistory_zero]
    unfold appendMessage
    rw [List.append_assoc]
    rw [parseRecords_append file h (encodeLine role content ts ++ ['\n'])]
    rw [henc]
  refine ⟨hmain, ?_⟩
  rw [hmain]
  rw [List.getLast?_concat]

/-- C9 witness: the round trip at an empty file, with content containing a
newline, quotes and Korean text. -/
theorem appendMessage_loadHistory_roundtrip_witness :
    loadHistory (appendMessage [] Role.user
        "hi\n\"안녕\"".toList 1736240340123) 0 =
      loadHistory [] 0 ++
        [{ role := "user".toList, content := "hi\n\"안녕\"".toList,
           timestamp := 1736240340123 }] ∧
    (loadHistory (appendMessage [] Role.user
        "hi\n\"안녕\"".toList 1736240340123) 0).getLast? =
      some { role := "user".toList, content := "hi\n\"안녕\"".toList,
             timestamp := 1736240340123 } :=
  appendMessage_loadHistory_roundtrip [] Role.user
    "hi\n\"안녕\"".toList 1736240340123 (Or.inl rfl)

end CompanionBot
